import Mathlib

/-!
Verification of the `axpy` crate (src/src/lib.rs): a token-rewriting
transformation that turns a linear-combination assignment such as
`z = 2.*z - x + 3.*y` into a single fused loop

    for (car, cdr) in z.iter_mut().zip(x.iter().zip(y.iter().map(|v| (v,)))) {
        *car = 2. * *car + - *cdr.0 + 3. * *cdr.1.0;
    }

The Rust source is a declarative token-rewriting definition with three
stages, marked by the prefixes `!` (term parsing), `@` (zipped iterator
construction) and `#` (scalar expression emission).  This file embeds each
stage as an executable Lean function over an explicit token type, and embeds
the generated loop itself as a small-step fold over an explicit store.
Element and scalar values are modelled as integers: every concrete scenario
in the claims uses small integer values on which `f64` arithmetic is exact
and agrees with integer arithmetic, and all structural claims (term order,
cursor binding, traversal) are value-type independent.
-/

namespace Axpy

/-- One token of the right-hand side, as seen by the rewriting rules:
an identifier, a numeric literal, or one of the operator tokens `+` `-` `*`.
(The source matches the coefficient position with `$a:tt`, i.e. any single
token; we therefore allow any token in coefficient position and only reject
non-value tokens at emission time, where the source would produce
non-compiling output.) -/
inductive Tok where
  | ident (s : String)
  | lit (v : Int)
  | plus
  | minus
  | star
deriving DecidableEq

/-- A parsed coefficient, as the parser stage stores it: either the original
coefficient token `$a`, or the token wrapped in a negation `(-$a)` (produced
by the rule for `- a * x`). -/
inductive Coeff where
  | tok (t : Tok)
  | negTok (t : Tok)
deriving DecidableEq

/-- One parsed term, mirroring the four normalized token shapes the parser
stage accumulates: `+ ^ x` and `- ^ x` (bare operand with a sign and no
coefficient, `pos` records the sign) and `a * x` / `(-a) * x`
(coefficiented operand). -/
inductive PTerm where
  | bare (pos : Bool) (x : String)
  | coeff (a : Coeff) (x : String)
deriving DecidableEq

/-- The operand identifier of a parsed term. -/
def PTerm.operand : PTerm → String
  | .bare _ x => x
  | .coeff _ x => x

/-- The assignment operator between the target cursor and the emitted
scalar.  The source passes any `$assign:tt` through verbatim; the three
documented operators are `=`, `+=` and `-=`. -/
inductive AOp where
  | assign
  | addAssign
  | subAssign
deriving DecidableEq

/-- Semantics of the assignment operator: old target value and fully
evaluated right-hand-side scalar to the written value. -/
def applyOp : AOp → Int → Int → Int
  | .assign, _, v => v
  | .addAssign, old, v => old + v
  | .subAssign, old, v => old - v

/-- The parser stage (the `!`-prefixed rules of the source, lines 50-73).
`acc` is the accumulated `($($parsed)*)` group; the second argument is the
unconsumed token stream.  The thirteen cases below transcribe, in source
order, the twelve rewriting rules plus the conclusion rule (which requires
a nonempty parsed group); any other token shape has no matching rule and
the rewrite fails, modelled as `none`. -/
def parseTokens : List PTerm → List Tok → Option (List PTerm)
  | acc, [] => if acc.isEmpty then none else some acc
  | acc, [.ident x] => some (acc ++ [.bare true x])
  | acc, [.plus, .ident x] => some (acc ++ [.bare true x])
  | acc, [.minus, .ident x] => some (acc ++ [.bare false x])
  | acc, .ident x :: .plus :: r₀ :: r =>
      parseTokens (acc ++ [.bare true x]) (.plus :: r₀ :: r)
  | acc, .ident x :: .minus :: r₀ :: r =>
      parseTokens (acc ++ [.bare true x]) (.minus :: r₀ :: r)
  | acc, .plus :: .ident x :: .plus :: r₀ :: r =>
      parseTokens (acc ++ [.bare true x]) (.plus :: r₀ :: r)
  | acc, .plus :: .ident x :: .minus :: r₀ :: r =>
      parseTokens (acc ++ [.bare true x]) (.minus :: r₀ :: r)
  | acc, .minus :: .ident x :: .plus :: r₀ :: r =>
      parseTokens (acc ++ [.bare false x]) (.plus :: r₀ :: r)
  | acc, .minus :: .ident x :: .minus :: r₀ :: r =>
      parseTokens (acc ++ [.bare false x]) (.minus :: r₀ :: r)
  | acc, a :: .star :: .ident x :: r =>
      parseTokens (acc ++ [.coeff (.tok a) x]) r
  | acc, .plus :: a :: .star :: .ident x :: r =>
      parseTokens (acc ++ [.coeff (.tok a) x]) r
  | acc, .minus :: a :: .star :: .ident x :: r =>
      parseTokens (acc ++ [.coeff (.negTok a) x]) r
  | _, _ => none

/-- The per-term cursor binding: either the single mutable cursor over the
target (`car` in the generated loop) or the `k`-th zipped read-only slot
(`cdr.1. ... .1.0` with `k` leading `.1` projections). -/
inductive Binding where
  | targetCursor
  | slot (k : Nat)
deriving DecidableEq

/-- The iterator-construction stage (the `@`-prefixed rules, lines 86-98):
walking the parsed terms in order, a term whose operand equals the target
`y` reuses the already mutably borrowed target cursor and contributes no
zipped iterator, while every other term contributes `x.iter()` zipped in.
The result is the ordered list of the zipped cursors, one per non-target
term occurrence. -/
def externalCursors (y : String) : List PTerm → List String
  | [] => []
  | t :: rest =>
      if t.operand = y then externalCursors y rest
      else t.operand :: externalCursors y rest

/-- The binding each term receives, mirroring the identifier-equality
dispatch (`eval!($x $y)`) shared by the `@` and `#` stages: the target
operand binds to the mutable cursor, every other term consumes the next
zip slot. `k` is the index of the next unconsumed slot. -/
def termBindings (y : String) (k : Nat) : List PTerm → List Binding
  | [] => []
  | t :: rest =>
      if t.operand = y then .targetCursor :: termBindings y k rest
      else .slot k :: termBindings y (k + 1) rest

/-- The scalar expression emitted for one loop iteration, as an explicit
syntax tree: the Rust token string the `#`-stage emits, parsed by Rust
precedence (a `+ -` sequence is addition of a negated operand value). -/
inductive SExpr where
  | lit (v : Int)
  | svar (s : String)
  | read (b : Binding)
  | neg (e : SExpr)
  | add (e₁ e₂ : SExpr)
  | mul (e₁ e₂ : SExpr)
deriving DecidableEq

/-- The expression a coefficient token denotes: a literal or a scalar
variable.  An operator token in coefficient position is accepted by the
source pattern `$a:tt` but yields non-compiling emitted code, modelled as
`none`. -/
def coeffTokExpr : Tok → Option SExpr
  | .lit v => some (.lit v)
  | .ident s => some (.svar s)
  | _ => none

/-- The expression a parsed coefficient denotes; `(-$a)` wraps the
coefficient, never the operand, in a negation. -/
def coeffExpr : Coeff → Option SExpr
  | .tok t => coeffTokExpr t
  | .negTok t => (coeffTokExpr t).map .neg

/-- The tokens one term contributes to the emitted scalar (`#`-stage rules,
lines 107-166), given its cursor binding: `*cur` for `+ ^ x`, `- *cur` for
`- ^ x`, and `a * *cur` for a coefficiented term. -/
def termExpr (b : Binding) : PTerm → Option SExpr
  | .bare true _ => some (.read b)
  | .bare false _ => some (.neg (.read b))
  | .coeff a _ => (coeffExpr a).map (fun c => .mul c (.read b))

/-- The emission stage (`#`-prefixed rules): a single linear walk over the
parsed terms with the accumulated expression as state.  Each emitted term
is joined to the accumulator with a `+` connector (the source appends
`... +` after every non-terminal term), which Rust parses left
associatively; a term whose operand is the target reads the mutable cursor
and consumes no slot, every other term consumes the next slot `k`. -/
def emitTerms (y : String) : Option SExpr → Nat → List PTerm → Option SExpr
  | acc, _, [] => acc
  | acc, k, t :: rest =>
      let b : Binding := if t.operand = y then .targetCursor else .slot k
      let k' : Nat := if t.operand = y then k else k + 1
      match termExpr b t with
      | none => none
      | some te =>
          match acc with
          | none => emitTerms y (some te) k' rest
          | some e => emitTerms y (some (.add e te)) k' rest

/-- The generated loop plan: target identifier, assignment operator, the
parsed terms, the ordered zipped cursors, and the emitted per-index scalar
expression. -/
structure Plan where
  target : String
  op : AOp
  terms : List PTerm
  exts : List String
  scalar : SExpr

/-- The whole generation pipeline, i.e. a complete expansion of the source
rewrite for `target assign tokens`: parse the right-hand side, construct
the zipped iterator list and emit the scalar expression.  Any failure at
any stage yields `none` and no plan. -/
def generate (y : String) (op : AOp) (toks : List Tok) : Option Plan :=
  match parseTokens [] toks with
  | none => none
  | some terms =>
      match emitTerms y none 0 terms with
      | none => none
      | some e => some ⟨y, op, terms, externalCursors y terms, e⟩

/-- The environment the generated loop runs in: a value for every scalar
identifier and a sequence for every sequence identifier.  The loop never
writes scalars and writes exactly one sequence, the target. -/
structure Store where
  scal : String → Int
  seqs : String → List Int

/-- Evaluation of the emitted scalar expression at one index: `car` is the
current value under the mutable target cursor, `cdr` the current values of
the zipped read-only cursors in slot order. -/
def evalS (scal : String → Int) (car : Int) (cdr : List Int) : SExpr → Int
  | .lit v => v
  | .svar s => scal s
  | .read .targetCursor => car
  | .read (.slot k) => cdr.getD k 0
  | .neg e => - evalS scal car cdr e
  | .add e₁ e₂ => evalS scal car cdr e₁ + evalS scal car cdr e₂
  | .mul e₁ e₂ => evalS scal car cdr e₁ * evalS scal car cdr e₂

/-- The number of iterations of the generated loop.  The loop is driven by
`target.iter_mut().zip(x₁.iter().zip( ... ))`, and a zipped iterator stops
at its shortest component, so the iteration count is the minimum of the
target length and the lengths of all zipped operand sequences, following
the nesting of the generated zips. -/
def loopN (st : Store) (exts : List String) (tgt : List Int) : Nat :=
  match exts with
  | [] => tgt.length
  | s :: rest => min (st.seqs s).length (loopN st rest tgt)

/-- The element each zipped cursor yields at index `i`: one read per
zipped cursor, failing if the index is out of range (which the zip-driven
iteration count rules out). -/
def cdrVals (st : Store) (i : Nat) : List String → Option (List Int)
  | [] => some []
  | s :: rest =>
      match (st.seqs s)[i]?, cdrVals st i rest with
      | some v, some vs => some (v :: vs)
      | _, _ => none

/-- One iteration of the generated loop at index `i`, acting on the current
target contents `z` and the write log `tr`: read the target element and
all zipped elements at `i`, fully evaluate the emitted scalar, combine via
the assignment operator, and perform the single write-back to index `i` of
the target. -/
def axpyStep (st : Store) (p : Plan) (acc : Option (List Int × List (Nat × Int)))
    (i : Nat) : Option (List Int × List (Nat × Int)) :=
  match acc with
  | none => none
  | some (z, tr) =>
      match z[i]?, cdrVals st i p.exts with
      | some car, some cdr =>
          let v := applyOp p.op car (evalS st.scal car cdr p.scalar)
          some (z.set i v, tr ++ [(i, v)])
      | _, _ => none

/-- The generated loop: iterate the fused body over indices `0, 1, ...` in
ascending order for as many steps as the zipped iterator yields, starting
from the current contents of the target sequence and an empty write log. -/
def runAxpy (st : Store) (p : Plan) : Option (List Int × List (Nat × Int)) :=
  (List.range (loopN st p.exts (st.seqs p.target))).foldl (axpyStep st p)
    (some (st.seqs p.target, []))

/-- The effect of the generated loop on the whole store: the target name is
rebound to the final target contents; nothing else is written. -/
def runStore (st : Store) (p : Plan) : Option Store :=
  (runAxpy st p).map
    (fun r => ⟨st.scal, fun s => if s = p.target then r.1 else st.seqs s⟩)

/-- Generate-and-execute: expand the rewrite for `y op toks` and run the
generated loop on the store. -/
def generateAndRun (y : String) (op : AOp) (toks : List Tok) (st : Store) :
    Option Store :=
  (generate y op toks).bind (runStore st)

/-- The value the loop computes for index `i`, expressed over the
pre-update store: the fully evaluated scalar at the pre-update target
element and the operand elements at `i`, combined with the old value by the
assignment operator. -/
def outVal (st : Store) (p : Plan) (i : Nat) : Int :=
  applyOp p.op ((st.seqs p.target).getD i 0)
    (evalS st.scal ((st.seqs p.target).getD i 0)
      (p.exts.map (fun s => (st.seqs s).getD i 0)) p.scalar)

/-- Scenario store of the tests (tests/trace.rs): `x = [1,2,3,4]`,
`y = [4,3,2,1]` and, for the advanced scenario, `z = [10,100,1000,10000]`
(for the basic scenario the claims use their own stores). -/
def storeB : Store :=
  ⟨fun _ => 0,
   fun s =>
     if s = "z" then [10, 100, 1000, 10000]
     else if s = "x" then [1, 2, 3, 4]
     else if s = "y" then [4, 3, 2, 1]
     else []⟩

/-- The token sequence of the right-hand side `2.*z - x + 3.*y`. -/
def tokensB : List Tok :=
  [.lit 2, .star, .ident "z", .minus, .ident "x", .plus, .lit 3, .star, .ident "y"]

/-- The plan the source expands `z = 2.*z - x + 3.*y` into, written out:
three parsed terms, two zipped cursors (the target `z` reuses the mutable
cursor), and the emitted left-associated scalar
`2 * *car + - *cdr.0 + 3 * *cdr.1.0`. -/
def planB : Plan :=
  ⟨"z", .assign,
   [.coeff (.tok (.lit 2)) "z", .bare false "x", .coeff (.tok (.lit 3)) "y"],
   ["x", "y"],
   .add (.add (.mul (.lit 2) (.read .targetCursor)) (.neg (.read (.slot 0))))
     (.mul (.lit 3) (.read (.slot 1)))⟩

/-- Scenario store of the basic test: `x = [1,2,3,4]`, `y = [4,3,2,1]`,
`z = [0,0,0,0]`. -/
def storeA : Store :=
  ⟨fun _ => 0,
   fun s =>
     if s = "z" then [0, 0, 0, 0]
     else if s = "x" then [1, 2, 3, 4]
     else if s = "y" then [4, 3, 2, 1]
     else []⟩

/-- The token sequence of the right-hand side `x + y`. -/
def tokensA : List Tok := [.ident "x", .plus, .ident "y"]

/-- The plan the source expands `z = x + y` into. -/
def planA : Plan :=
  ⟨"z", .assign, [.bare true "x", .bare true "y"], ["x", "y"],
   .add (.read (.slot 0)) (.read (.slot 1))⟩

/-- A store violating the equal-length precondition: the operand `x` has
one element while the target `z` has two. -/
def storeMM : Store :=
  ⟨fun _ => 0, fun s => if s = "z" then [10, 20] else if s = "x" then [5] else []⟩

/-- The plan the source expands `z = x` into. -/
def planMM : Plan :=
  ⟨"z", .assign, [.bare true "x"], ["x"], .read (.slot 0)⟩

/-- Left-associated joining of the per-term expressions, following the
wording of the specification: the scalar is evaluated strictly left to
right, `((term0 + term1) + term2) ...`, each term joined to the running
expression in original source order. -/
def leftAssocSum (e : SExpr) (es : List SExpr) : SExpr := es.foldl .add e

/-- The per-term expressions of a term list in source order, with the slot
assignment of the planner (target terms read the mutable cursor and consume
no slot; other terms consume slots in order of appearance).  `none` when a
term has a non-value coefficient token. -/
def plannedTermExprs (y : String) (k : Nat) : List PTerm → Option (List SExpr)
  | [] => some []
  | t :: rest =>
      let b : Binding := if t.operand = y then .targetCursor else .slot k
      let k' : Nat := if t.operand = y then k else k + 1
      match termExpr b t, plannedTermExprs y k' rest with
      | some e, some es => some (e :: es)
      | _, _ => none

/-- The specification shape of the emitted scalar: the per-term
expressions of the parsed terms, in source order, joined strictly left
associatively. -/
def leftToRightForm (y : String) (terms : List PTerm) : Option SExpr :=
  match plannedTermExprs y 0 terms with
  | some (e :: es) => some (leftAssocSum e es)
  | _ => none

/-- Strict left-to-right evaluation of a nonempty term-expression list:
start from the value of the first term and fold the remaining term values
in, in order. -/
def ltrEval (scal : String → Int) (car : Int) (cdr : List Int) :
    List SExpr → Option Int
  | [] => none
  | e :: es =>
      some (es.foldl (fun a t => a + evalS scal car cdr t) (evalS scal car cdr e))

theorem loopN_le_target (st : Store) (tgt : List Int) :
    ∀ exts, loopN st exts tgt ≤ tgt.length := by
  intro exts
  induction exts with
  | nil => exact le_refl _
  | cons s rest ih => exact le_trans (min_le_right _ _) ih

theorem loopN_le_ext (st : Store) (tgt : List Int) :
    ∀ exts s, s ∈ exts → loopN st exts tgt ≤ (st.seqs s).length := by
  intro exts
  induction exts with
  | nil => intro s hs; cases hs
  | cons s' rest ih =>
      intro s hs
      rcases List.mem_cons.mp hs with h | h
      · subst h; exact min_le_left _ _
      · exact le_trans (min_le_right _ _) (ih s h)

theorem cdrVals_eq (st : Store) (i : Nat) :
    ∀ exts, (∀ s ∈ exts, i < (st.seqs s).length) →
      cdrVals st i exts = some (exts.map (fun s => (st.seqs s).getD i 0)) := by
  intro exts
  induction exts with
  | nil => intro _; rfl
  | cons s rest ih =>
      intro h
      have hs : i < (st.seqs s).length := h s (List.mem_cons_self s rest)
      have hrest : ∀ t ∈ rest, i < (st.seqs t).length :=
        fun t ht => h t (List.mem_cons_of_mem s ht)
      simp only [cdrVals, List.getElem?_eq_getElem hs, ih hrest, List.map_cons,
        List.getD_eq_getElem _ _ hs]

theorem map_range_getD (l : List Int) :
    (List.range l.length).map (fun i => l.getD i 0) = l := by
  apply List.ext_getElem?
  intro n
  by_cases h : n < l.length
  · rw [List.getElem?_map, List.getElem?_range h, List.getElem?_eq_getElem h,
      Option.map_some', List.getD_eq_getElem l 0 h]
  · rw [List.getElem?_map, List.getElem?_eq_none, List.getElem?_eq_none (le_of_not_lt h)]
    · rfl
    · simpa [List.length_range] using le_of_not_lt h

theorem runAxpy_inv (st : Store) (p : Plan) (k : Nat)
    (hk : k ≤ loopN st p.exts (st.seqs p.target)) :
    (List.range k).foldl (axpyStep st p) (some (st.seqs p.target, [])) =
      some ((List.range (st.seqs p.target).length).map
              (fun i => if i < k then outVal st p i else (st.seqs p.target).getD i 0),
            (List.range k).map (fun i => (i, outVal st p i))) := by
  induction k with
  | zero =>
      simp only [List.range_zero, List.foldl_nil, List.map_nil]
      rw [show (fun i => if i < 0 then outVal st p i
            else (st.seqs p.target).getD i 0) = fun i => (st.seqs p.target).getD i 0
          from funext fun i => if_neg (Nat.not_lt_zero i)]
      rw [map_range_getD]
  | succ k ih =>
      have hk' : k ≤ loopN st p.exts (st.seqs p.target) := Nat.le_of_succ_le hk
      have hkn : k < loopN st p.exts (st.seqs p.target) := hk
      have hklen : k < (st.seqs p.target).length :=
        lt_of_lt_of_le hkn (loopN_le_target st _ p.exts)
      rw [List.range_succ, List.foldl_append, ih hk', List.foldl_cons, List.foldl_nil]
      have hcar :
          ((List.range (st.seqs p.target).length).map
            (fun i => if i < k then outVal st p i
                      else (st.seqs p.target).getD i 0))[k]?
            = some ((st.seqs p.target).getD k 0) := by
        rw [List.getElem?_map, List.getElem?_range hklen]
        simp
      have hcdr : cdrVals st k p.exts
          = some (p.exts.map (fun s => (st.seqs s).getD k 0)) :=
        cdrVals_eq st k p.exts
          (fun s hs => lt_of_lt_of_le hkn (loopN_le_ext st _ p.exts s hs))
      simp only [axpyStep, hcar, hcdr]
      simp only [Option.some.injEq, Prod.mk.injEq]
      constructor
      · apply List.ext_getElem?
        intro n
        by_cases hn : n = k
        · subst hn
          rw [List.getElem?_set_self (by simpa using hklen), List.getElem?_map,
            List.getElem?_range hklen]
          simp only [Nat.lt_succ_self, if_pos, Option.map_some']
          rfl
        · rw [List.getElem?_set_ne (fun h => hn h.symm), List.getElem?_map,
            List.getElem?_map]
          by_cases hlt : n < (st.seqs p.target).length
          · rw [List.getElem?_range hlt]
            simp only [Option.map_some']
            by_cases h2 : n < k
            · rw [if_pos h2, if_pos (Nat.lt_succ_of_lt h2)]
            · rw [if_neg h2, if_neg (by omega)]
          · rw [List.getElem?_eq_none (by simpa [List.length_range] using le_of_not_lt hlt)]
            rfl
      · rw [List.map_append]
        rfl

theorem runAxpy_eq (st : Store) (p : Plan) :
    runAxpy st p =
      some ((List.range (st.seqs p.target).length).map
              (fun i => if i < loopN st p.exts (st.seqs p.target) then outVal st p i
                        else (st.seqs p.target).getD i 0),
            (List.range (loopN st p.exts (st.seqs p.target))).map
              (fun i => (i, outVal st p i))) := by
  unfold runAxpy
  exact runAxpy_inv st p _ (le_refl _)

theorem generate_inv (y : String) (op : AOp) (toks : List Tok) (p : Plan)
    (hp : generate y op toks = some p) :
    p.target = y ∧ p.op = op ∧ parseTokens [] toks = some p.terms ∧
      emitTerms y none 0 p.terms = some p.scalar ∧
      p.exts = externalCursors y p.terms := by
  unfold generate at hp
  split at hp
  · exact absurd hp (by simp)
  · next terms h1 =>
      split at hp
      · exact absurd hp (by simp)
      · next e h2 =>
          simp only [Option.some.injEq] at hp
          subst hp
          exact ⟨rfl, rfl, h1, h2, rfl⟩

theorem runStore_eq (st : Store) (p : Plan) :
    runStore st p =
      some ⟨st.scal,
        fun s =>
          if s = p.target then
            (List.range (st.seqs p.target).length).map
              (fun i => if i < loopN st p.exts (st.seqs p.target) then outVal st p i
                        else (st.seqs p.target).getD i 0)
          else st.seqs s⟩ := by
  unfold runStore
  rw [runAxpy_eq]
  rfl

theorem loopN_of_equal (st : Store) (tgt : List Int) (n : Nat)
    (htgt : tgt.length = n) :
    ∀ exts, (∀ s ∈ exts, (st.seqs s).length = n) → loopN st exts tgt = n := by
  intro exts
  induction exts with
  | nil => intro _; exact htgt
  | cons s rest ih =>
      intro h
      have hs : (st.seqs s).length = n := h s (List.mem_cons_self s rest)
      have := ih (fun t ht => h t (List.mem_cons_of_mem s ht))
      simp [loopN, hs, this]

/-- C1: generating and executing `z = 2.*z - x + 3.*y` on the store with
`x = [1,2,3,4]`, `y = [4,3,2,1]`, `z = [10,100,1000,10000]` updates every
index `i` of `z` to `2*z_i - x_i + 3*y_i`, giving
`z = [31, 207, 2003, 19999]`. -/
theorem scenario_b_result :
    (generateAndRun "z" .assign tokensB storeB).map (fun st => st.seqs "z")
      = some [31, 207, 2003, 19999] := by decide

/-- C2: whenever the target identifier also appears as an operand, the
value the generated loop computes for an index `i` is the emitted scalar
fully evaluated over the pre-update store — the target cursor reads the
pre-update element of the target at `i` — before the single write-back to
that index; no already overwritten value enters the computation. -/
theorem self_alias_reads_pre_update (y : String) (op : AOp) (toks : List Tok)
    (p : Plan) (st : Store) (i : Nat)
    (hp : generate y op toks = some p)
    (hmem : p.target ∈ p.terms.map PTerm.operand)
    (hi : i < loopN st p.exts (st.seqs p.target)) :
    (runAxpy st p).map (fun r => r.1[i]?) =
      some (some (applyOp p.op ((st.seqs p.target).getD i 0)
        (evalS st.scal ((st.seqs p.target).getD i 0)
          (p.exts.map (fun s => (st.seqs s).getD i 0)) p.scalar))) := by
  have hlen : i < (st.seqs p.target).length :=
    lt_of_lt_of_le hi (loopN_le_target st _ p.exts)
  rw [runAxpy_eq]
  simp only [Option.map_some']
  rw [List.getElem?_map, List.getElem?_range hlen]
  simp only [Option.map_some', if_pos hi]
  rfl

theorem self_alias_reads_pre_update_witness :
    planB.target ∈ planB.terms.map PTerm.operand ∧
    0 < loopN storeB planB.exts (storeB.seqs planB.target) ∧
    (runAxpy storeB planB).map (fun r => r.1[0]?) =
      some (some (applyOp planB.op ((storeB.seqs planB.target).getD 0 0)
        (evalS storeB.scal ((storeB.seqs planB.target).getD 0 0)
          (planB.exts.map (fun s => (storeB.seqs s).getD 0 0)) planB.scalar))) :=
  ⟨by decide, by decide,
   self_alias_reads_pre_update "z" .assign tokensB planB storeB 0 rfl
     (by decide) (by decide)⟩

/-- C9: on sequences of one common length `n`, the generated loop performs
exactly `n` writes, at indices `0, 1, ..., n-1` in ascending order, one
write per index, and the target keeps length `n`. -/
theorem loop_covers_each_index_once (y : String) (op : AOp) (toks : List Tok)
    (p : Plan) (st : Store) (n : Nat)
    (hp : generate y op toks = some p)
    (htgt : (st.seqs p.target).length = n)
    (hext : ∀ s ∈ p.exts, (st.seqs s).length = n) :
    (runAxpy st p).map (fun r => r.2.map Prod.fst) = some (List.range n) ∧
    (runAxpy st p).map (fun r => r.2.length) = some n ∧
    (runAxpy st p).map (fun r => r.1.length) = some n := by
  have hn : loopN st p.exts (st.seqs p.target) = n :=
    loopN_of_equal st _ n htgt p.exts hext
  rw [runAxpy_eq, hn, htgt]
  refine ⟨?_, ?_, ?_⟩
  · simp only [Option.map_some', List.map_map]
    rw [show (Prod.fst ∘ fun i => (i, outVal st p i)) = fun (i : Nat) => i from rfl]
    rw [List.map_id']
  · simp
  · simp

theorem loop_covers_each_index_once_witness :
    (storeA.seqs planA.target).length = 4 ∧
    ((runAxpy storeA planA).map (fun r => r.2.map Prod.fst) = some (List.range 4) ∧
     (runAxpy storeA planA).map (fun r => r.2.length) = some 4 ∧
     (runAxpy storeA planA).map (fun r => r.1.length) = some 4) :=
  ⟨by decide,
   loop_covers_each_index_once "z" .assign tokensA planA storeA 4 rfl
     (by decide) (by decide)⟩

/-- C5 counterexample: with the equal-length precondition violated
(`z = [10,20]` assigned from `x = [5]`), executing the generated loop for
`z = x` does NOT fail with an out-of-range access: it completes, writing
only the one index the zipped iterator yields and leaving `z[1]`
untouched. -/
theorem length_mismatch_no_failure_cex :
    (generateAndRun "z" .assign [.ident "x"] storeMM).map (fun st => st.seqs "z")
      = some [5, 20] ∧
    generateAndRun "z" .assign [.ident "x"] storeMM ≠ none := by
  have h1 : (generateAndRun "z" .assign [.ident "x"] storeMM).map
      (fun st => st.seqs "z") = some [5, 20] := by decide
  refine ⟨h1, fun h => ?_⟩
  rw [h] at h1
  simp at h1

/-- C5 amended: if the equal-length precondition is violated, the
generated loop does not fail: the zipped iterator truncates the traversal
to the shortest referenced sequence, the target keeps its length, and
every target element at or beyond the truncated iteration count is left
unchanged. -/
theorem length_mismatch_truncates (y : String) (op : AOp) (toks : List Tok)
    (p : Plan) (st : Store) (i : Nat)
    (hp : generate y op toks = some p)
    (hi : loopN st p.exts (st.seqs p.target) ≤ i) :
    (runStore st p).map (fun s2 => (s2.seqs p.target).length)
      = some (st.seqs p.target).length ∧
    (runStore st p).map (fun s2 => (s2.seqs p.target)[i]?)
      = some ((st.seqs p.target)[i]?) := by
  rw [runStore_eq]
  simp only [Option.map_some', Option.some.injEq, if_pos]
  constructor
  · simp
  · by_cases hlen : i < (st.seqs p.target).length
    · rw [List.getElem?_map, List.getElem?_range hlen, List.getElem?_eq_getElem hlen,
        Option.map_some', if_neg (by omega), List.getD_eq_getElem _ 0 hlen]
    · rw [List.getElem?_map,
        List.getElem?_eq_none (by simpa using le_of_not_lt hlen),
        List.getElem?_eq_none (le_of_not_lt hlen)]
      rfl

theorem length_mismatch_truncates_witness :
    loopN storeMM planMM.exts (storeMM.seqs planMM.target) ≤ 1 ∧
    ((runStore storeMM planMM).map (fun s2 => (s2.seqs planMM.target).length)
        = some (storeMM.seqs planMM.target).length ∧
     (runStore storeMM planMM).map (fun s2 => (s2.seqs planMM.target)[1]?)
        = some ((storeMM.seqs planMM.target)[1]?)) :=
  ⟨by decide,
   length_mismatch_truncates "z" .assign [.ident "x"] planMM storeMM 1 rfl
     (by decide)⟩

/-- C10: executing the generated loop rebinds only the target name; every
other sequence name keeps its sequence unchanged and the scalar
environment is returned unchanged. -/
theorem only_target_mutated (y : String) (op : AOp) (toks : List Tok)
    (p : Plan) (st : Store) (s : String)
    (hp : generate y op toks = some p)
    (hs : s ≠ p.target) :
    (runStore st p).map (fun s2 => s2.seqs s) = some (st.seqs s) ∧
    (runStore st p).map Store.scal = some st.scal := by
  rw [runStore_eq]
  simp only [Option.map_some', Option.some.injEq]
  exact ⟨by rw [if_neg hs], trivial⟩

theorem only_target_mutated_witness :
    "x" ≠ planB.target ∧
    ((runStore storeB planB).map (fun s2 => s2.seqs "x") = some (storeB.seqs "x") ∧
     (runStore storeB planB).map Store.scal = some storeB.scal) :=
  ⟨by decide,
   only_target_mutated "z" .assign tokensB planB storeB "x" rfl (by decide)⟩

theorem target_not_mem_externalCursors (y : String) :
    ∀ terms : List PTerm, y ∉ externalCursors y terms := by
  intro terms
  induction terms with
  | nil => simp [externalCursors]
  | cons t rest ih =>
      by_cases h : t.operand = y
      · simpa [externalCursors, h] using ih
      · intro hmem
        rw [externalCursors, if_neg h] at hmem
        rcases List.mem_cons.mp hmem with h' | h'
        · exact h h'.symm
        · exact ih h'

theorem termBindings_target_iff (y : String) :
    ∀ (terms : List PTerm) (k j : Nat), j < terms.length →
      ((termBindings y k terms)[j]? = some .targetCursor ↔
        (terms[j]?).map PTerm.operand = some y) := by
  intro terms
  induction terms with
  | nil => intro k j hj; simp at hj
  | cons t rest ih =>
      intro k j hj
      by_cases h : t.operand = y
      · cases j with
        | zero => simp [termBindings, h]
        | succ j' =>
            rw [termBindings, if_pos h, List.getElem?_cons_succ, List.getElem?_cons_succ]
            exact ih k j' (Nat.lt_of_succ_lt_succ hj)
      · cases j with
        | zero => simp [termBindings, h]
        | succ j' =>
            rw [termBindings, if_neg h, List.getElem?_cons_succ, List.getElem?_cons_succ]
            exact ih (k + 1) j' (Nat.lt_of_succ_lt_succ hj)

/-- C3 counterexample: for the valid expression `z = x + x`, the generated
iteration plan zips the operand `x` TWICE — one read-only cursor per
textual occurrence, not one shared cursor per distinct operand — so the
plan does not contain each distinct non-target operand exactly once. -/
theorem dup_operand_two_cursors_cex :
    (generate "z" .assign [.ident "x", .plus, .ident "x"]).map Plan.exts
      = some ["x", "x"] ∧
    (["x", "x"] : List String).count "x" ≠ 1 := by decide

/-- C3 amended: the iteration plan contains one zipped cursor per
non-target TERM OCCURRENCE, in source order — the occurrence list of the
non-target operands — so an operand appearing in several terms is zipped
(and read per index) once per occurrence; only the target is
deduplicated. -/
theorem external_cursors_per_occurrence (y : String) (terms : List PTerm) :
    externalCursors y terms =
      (terms.filter (fun t => t.operand ≠ y)).map PTerm.operand := by
  induction terms with
  | nil => rfl
  | cons t rest ih =>
      by_cases h : t.operand = y
      · rw [externalCursors, if_pos h, ih, List.filter_cons]
        simp [h]
      · rw [externalCursors, if_neg h, ih, List.filter_cons]
        simp [h]

/-- C4: the target identifier is never among the zipped external cursors,
and the term-binding dispatch binds a term to the single mutable target
cursor exactly when its operand is the target identifier — every
occurrence of the target among the terms shares that one mutable cursor,
however many occurrences (zero or more) there are. -/
theorem target_not_zipped (y : String) (op : AOp) (toks : List Tok)
    (p : Plan) (k : Nat)
    (hp : generate y op toks = some p)
    (hk : k < p.terms.length) :
    p.target ∉ p.exts ∧
    ((termBindings p.target 0 p.terms)[k]? = some .targetCursor ↔
      (p.terms[k]?).map PTerm.operand = some p.target) := by
  obtain ⟨hy, -, -, -, hexts⟩ := generate_inv y op toks p hp
  constructor
  · rw [hexts, hy]
    exact target_not_mem_externalCursors y p.terms
  · exact termBindings_target_iff p.target p.terms 0 k hk

theorem target_not_zipped_witness :
    0 < planB.terms.length ∧
    (planB.target ∉ planB.exts ∧
     ((termBindings planB.target 0 planB.terms)[0]? = some .targetCursor ↔
       (planB.terms[0]?).map PTerm.operand = some planB.target)) :=
  ⟨by decide, target_not_zipped "z" .assign tokensB planB 0 rfl (by decide)⟩

theorem emitTerms_some_eq (y : String) :
    ∀ (terms : List PTerm) (k : Nat) (e : SExpr),
      emitTerms y (some e) k terms = (plannedTermExprs y k terms).map (leftAssocSum e) := by
  intro terms
  induction terms with
  | nil => intro k e; rfl
  | cons t rest ih =>
      intro k e
      simp only [emitTerms, plannedTermExprs]
      cases h : termExpr (if t.operand = y then Binding.targetCursor else Binding.slot k) t with
      | none => rfl
      | some te =>
          dsimp only
          rw [ih]
          cases h2 : plannedTermExprs y (if t.operand = y then k else k + 1) rest with
          | none => rfl
          | some es => rfl

theorem emitTerms_none_eq (y : String) :
    ∀ (terms : List PTerm) (k : Nat),
      emitTerms y none k terms =
        match plannedTermExprs y k terms with
        | some (e :: es) => some (leftAssocSum e es)
        | _ => none := by
  intro terms
  cases terms with
  | nil => intro k; rfl
  | cons t rest =>
      intro k
      simp only [emitTerms, plannedTermExprs]
      cases h : termExpr (if t.operand = y then Binding.targetCursor else Binding.slot k) t with
      | none => rfl
      | some te =>
          dsimp only
          rw [emitTerms_some_eq]
          cases h2 : plannedTermExprs y (if t.operand = y then k else k + 1) rest with
          | none => rfl
          | some es => rfl

theorem evalS_leftAssocSum (scal : String → Int) (car : Int) (cdr : List Int) :
    ∀ (es : List SExpr) (e : SExpr),
      evalS scal car cdr (leftAssocSum e es) =
        es.foldl (fun a t => a + evalS scal car cdr t) (evalS scal car cdr e) := by
  intro es
  induction es with
  | nil => intro e; rfl
  | cons e' es ih =>
      intro e
      show evalS scal car cdr (leftAssocSum (SExpr.add e e') es) = _
      rw [ih]
      rfl

/-- C8: the emitted per-index scalar is exactly the per-term expressions
of the source terms, in original source order, joined strictly left
associatively — `((term0 + term1) + term2) ...` — and its value is the
strict left-to-right fold of the term values; no commutative or
associative reordering of terms occurs. -/
theorem emission_left_to_right (y : String) (op : AOp) (toks : List Tok)
    (p : Plan) (scal : String → Int) (car : Int) (cdr : List Int)
    (hp : generate y op toks = some p) :
    some p.scalar = leftToRightForm y p.terms ∧
    some (evalS scal car cdr p.scalar) =
      (plannedTermExprs y 0 p.terms).bind (ltrEval scal car cdr) := by
  obtain ⟨-, -, -, hemit, -⟩ := generate_inv y op toks p hp
  rw [emitTerms_none_eq y p.terms 0] at hemit
  cases h : plannedTermExprs y 0 p.terms with
  | none => rw [h] at hemit; exact absurd hemit (by simp)
  | some es =>
      cases es with
      | nil => rw [h] at hemit; exact absurd hemit (by simp)
      | cons e es =>
          rw [h] at hemit
          simp only [Option.some.injEq] at hemit
          constructor
          · rw [leftToRightForm, h]
            dsimp only
            rw [hemit]
          · rw [← hemit]
            dsimp only [Option.bind, ltrEval]
            rw [evalS_leftAssocSum]

theorem emission_left_to_right_witness :
    some planB.scalar = leftToRightForm "z" planB.terms ∧
    some (evalS (fun _ => 0) 10 [1, 4] planB.scalar) =
      (plannedTermExprs "z" 0 planB.terms).bind (ltrEval (fun _ => 0) 10 [1, 4]) :=
  emission_left_to_right "z" .assign tokensB planB (fun _ => 0) 10 [1, 4] rfl

/-- C6 counterexample: parsing `- x` does not fold the sign into a `-1`
coefficient: the parsed term is the sign-only coefficient-less `- ^ x`,
and the emitted expression for `z = - x` wraps the operand read itself in
a unary negation — it is not a multiplication of the operand by a negated
coefficient. -/
theorem bare_minus_unary_neg_cex :
    parseTokens [] [.minus, .ident "x"] = some [.bare false "x"] ∧
    (generate "z" .assign [.minus, .ident "x"]).map Plan.scalar
      = some (.neg (.read (.slot 0))) ∧
    SExpr.neg (.read (.slot 0)) ≠ .mul (.lit (-1)) (.read (.slot 0)) := by decide

/-- C6 amended: an explicit `- coefficient * operand` folds the negation
into the coefficient, `(-coefficient) * operand`, and there the operand
read is never wrapped in a negation; a bare unsigned operand is kept as a
plus-signed coefficient-less term whose emitted value is the operand value
(semantically `1 * operand`); a bare operand preceded by `-` is kept as a
minus-signed coefficient-less term whose emitted expression applies a
unary negation to the operand read (semantically `(-1) * operand` — no
`-1` coefficient is materialized). -/
theorem sign_coefficient_normalization (x : String) (a v car : Int)
    (scal : String → Int) :
    parseTokens [] [.ident x] = some [.bare true x] ∧
    parseTokens [] [.minus, .ident x] = some [.bare false x] ∧
    parseTokens [] [.minus, .lit a, .star, .ident x]
      = some [.coeff (.negTok (.lit a)) x] ∧
    parseTokens [] [.lit a, .star, .ident x] = some [.coeff (.tok (.lit a)) x] ∧
    termExpr (.slot 0) (.bare true x) = some (.read (.slot 0)) ∧
    termExpr (.slot 0) (.bare false x) = some (.neg (.read (.slot 0))) ∧
    termExpr (.slot 0) (.coeff (.negTok (.lit a)) x)
      = some (.mul (.neg (.lit a)) (.read (.slot 0))) ∧
    evalS scal car [v] (.read (.slot 0)) = 1 * v ∧
    evalS scal car [v] (.neg (.read (.slot 0))) = (-1) * v ∧
    evalS scal car [v] (.mul (.neg (.lit a)) (.read (.slot 0))) = (-a) * v := by
  refine ⟨rfl, rfl, rfl, rfl, rfl, rfl, rfl, ?_, ?_, ?_⟩
  · show v = 1 * v
    rw [one_mul]
  · show -v = (-1) * v
    rw [neg_one_mul]
  · show -a * v = (-a) * v
    rfl

theorem parse_last_ident (acc : List PTerm) (toks : List Tok) :
    ∀ ts, parseTokens acc toks = some ts →
      toks = [] ∨ ∃ s, toks.getLast? = some (Tok.ident s) := by
  induction acc, toks using parseTokens.induct
  · intro ts _; exact Or.inl rfl
  · intro ts _; exact Or.inl rfl
  · next acc x =>
      intro ts _; exact Or.inr ⟨x, by simp⟩
  · next acc x =>
      intro ts _; exact Or.inr ⟨x, by simp⟩
  · next acc x =>
      intro ts _; exact Or.inr ⟨x, by simp⟩
  · next acc x r₀ r ih =>
      intro ts h
      simp only [parseTokens] at h
      rcases ih ts h with h' | ⟨s, hs⟩
      · exact absurd h' (by simp)
      · refine Or.inr ⟨s, ?_⟩
        rw [List.getLast?_cons_cons]
        exact hs
  · next acc x r₀ r ih =>
      intro ts h
      simp only [parseTokens] at h
      rcases ih ts h with h' | ⟨s, hs⟩
      · exact absurd h' (by simp)
      · refine Or.inr ⟨s, ?_⟩
        rw [List.getLast?_cons_cons]
        exact hs
  · next acc x r₀ r ih =>
      intro ts h
      simp only [parseTokens] at h
      rcases ih ts h with h' | ⟨s, hs⟩
      · exact absurd h' (by simp)
      · refine Or.inr ⟨s, ?_⟩
        rw [List.getLast?_cons_cons, List.getLast?_cons_cons]
        exact hs
  · next acc x r₀ r ih =>
      intro ts h
      simp only [parseTokens] at h
      rcases ih ts h with h' | ⟨s, hs⟩
      · exact absurd h' (by simp)
      · refine Or.inr ⟨s, ?_⟩
        rw [List.getLast?_cons_cons, List.getLast?_cons_cons]
        exact hs
  · next acc x r₀ r ih =>
      intro ts h
      simp only [parseTokens] at h
      rcases ih ts h with h' | ⟨s, hs⟩
      · exact absurd h' (by simp)
      · refine Or.inr ⟨s, ?_⟩
        rw [List.getLast?_cons_cons, List.getLast?_cons_cons]
        exact hs
  · next acc x r₀ r ih =>
      intro ts h
      simp only [parseTokens] at h
      rcases ih ts h with h' | ⟨s, hs⟩
      · exact absurd h' (by simp)
      · refine Or.inr ⟨s, ?_⟩
        rw [List.getLast?_cons_cons, List.getLast?_cons_cons]
        exact hs
  · next acc a x r ih =>
      intro ts h
      simp only [parseTokens] at h
      rcases ih ts h with h' | ⟨s, hs⟩
      · subst h'
        exact Or.inr ⟨x, by simp⟩
      · cases r with
        | nil => simp at hs
        | cons r1 rs =>
            refine Or.inr ⟨s, ?_⟩
            rw [List.getLast?_cons_cons, List.getLast?_cons_cons, List.getLast?_cons_cons]
            exact hs
  · next acc a x r ih =>
      intro ts h
      simp only [parseTokens] at h
      rcases ih ts h with h' | ⟨s, hs⟩
      · subst h'
        exact Or.inr ⟨x, by simp⟩
      · cases r with
        | nil => simp at hs
        | cons r1 rs =>
            refine Or.inr ⟨s, ?_⟩
            rw [List.getLast?_cons_cons, List.getLast?_cons_cons,
              List.getLast?_cons_cons, List.getLast?_cons_cons]
            exact hs
  · next acc a x r ih =>
      intro ts h
      simp only [parseTokens] at h
      rcases ih ts h with h' | ⟨s, hs⟩
      · subst h'
        exact Or.inr ⟨x, by simp⟩
      · cases r with
        | nil => simp at hs
        | cons r1 rs =>
            refine Or.inr ⟨s, ?_⟩
            rw [List.getLast?_cons_cons, List.getLast?_cons_cons,
              List.getLast?_cons_cons, List.getLast?_cons_cons]
            exact hs
  · next t acc hne1 hne2 hne3 hne4 hne5 hne6 hne7 hne8 hne9 hne10 hne11 hne12 hne13 =>
      intro ts h
      rw [parseTokens.eq_def] at h
      split at h
      all_goals first
        | exact (hne1 rfl).elim
        | exact (hne2 _ rfl).elim
        | exact (hne3 _ rfl).elim
        | exact (hne4 _ rfl).elim
        | exact (hne5 _ _ _ rfl).elim
        | exact (hne6 _ _ _ rfl).elim
        | exact (hne7 _ _ _ rfl).elim
        | exact (hne8 _ _ _ rfl).elim
        | exact (hne9 _ _ _ rfl).elim
        | exact (hne10 _ _ _ rfl).elim
        | exact (hne11 _ _ _ rfl).elim
        | exact (hne12 _ _ _ rfl).elim
        | exact (hne13 _ _ _ rfl).elim
        | exact Option.noConfusion h

/-- C7: malformed right-hand sides fail generation with no plan produced:
an empty right-hand side, a coefficient position not followed by
`* operand` (the `z = * x` scenario), and any token sequence ending in a
dangling `+` or `-` sign all make `generate` return `none` — never a
partial plan. -/
theorem malformed_input_rejected (y : String) (op : AOp) (toks : List Tok) :
    generate y op [] = none ∧
    generate y op [.star, .ident "x"] = none ∧
    generate y op (toks ++ [.plus]) = none ∧
    generate y op (toks ++ [.minus]) = none := by
  refine ⟨rfl, rfl, ?_, ?_⟩
  · cases hpt : parseTokens [] (toks ++ [.plus]) with
    | none => simp [generate, hpt]
    | some ts =>
        rcases parse_last_ident [] (toks ++ [.plus]) ts hpt with h | ⟨s, hs⟩
        · exact absurd h (by simp)
        · rw [List.getLast?_concat] at hs
          exact absurd hs (by simp)
  · cases hpt : parseTokens [] (toks ++ [.minus]) with
    | none => simp [generate, hpt]
    | some ts =>
        rcases parse_last_ident [] (toks ++ [.minus]) ts hpt with h | ⟨s, hs⟩
        · exact absurd h (by simp)
        · rw [List.getLast?_concat] at hs
          exact absurd hs (by simp)

end Axpy
